import Mathlib

/-!
Verification development for the Factorio server mod manager
(`src/updater/check_update.rs` and `src/updater/mod_updater.rs`).

The Rust sources are shallowly embedded:
pure computations (SHA-1 hashing and hex formatting, semantic-version
parsing and comparison, release selection, folder-name derivation)
become Lean functions; the stateful installer `update_mod` and the
orchestrator `check_mod_updates` become functions that pass an explicit
filesystem state, with the external world (network, archive contents)
supplied as explicit inputs.
-/

set_option maxRecDepth 200000

namespace FMM

/-! ## SHA-1 (model of the `sha1` crate usage in `update_mod`)

`update_mod` computes `Sha1::digest` over the downloaded bytes and formats
it with `format!("{:x}", ...)`, i.e. lowercase hexadecimal. Bytes are
modelled as `Nat` values below 256; 32-bit words as `Nat` reduced `% 2^32`.
-/

/-- Left-rotation of a 32-bit word represented as a `Nat` below `2^32`. -/
def rotl32 (n w : Nat) : Nat := ((w <<< n) ||| (w >>> (32 - n))) % 4294967296

/-- Group a byte list into big-endian 32-bit words (a ragged tail is dropped;
after SHA-1 padding the length is always a multiple of 4). -/
def bytesToWords : List Nat → List Nat
  | a :: b :: c :: d :: rest => (((a * 256 + b) * 256 + c) * 256 + d) :: bytesToWords rest
  | _ => []

/-- Group a word list into 16-word blocks (a ragged tail is dropped;
after SHA-1 padding the length is always a multiple of 16). -/
def toBlocks : List Nat → List (List Nat)
  | w0 :: w1 :: w2 :: w3 :: w4 :: w5 :: w6 :: w7 :: w8 :: w9 :: w10 :: w11 :: w12 :: w13 :: w14 :: w15 :: rest =>
      [w0, w1, w2, w3, w4, w5, w6, w7, w8, w9, w10, w11, w12, w13, w14, w15] :: toBlocks rest
  | _ => []

/-- SHA-1 padding: append the byte 0x80, zero bytes, and the 64-bit
big-endian bit length, reaching a multiple of 64 bytes. -/
def sha1Pad (msg : List Nat) : List Nat :=
  let len := msg.length
  let k := (119 - len % 64) % 64
  let bitLen := len * 8
  msg ++ [128] ++ List.replicate k 0 ++
    [(bitLen >>> 56) % 256, (bitLen >>> 48) % 256, (bitLen >>> 40) % 256, (bitLen >>> 32) % 256,
     (bitLen >>> 24) % 256, (bitLen >>> 16) % 256, (bitLen >>> 8) % 256, bitLen % 256]

/-- The SHA-1 round function. -/
def sha1F (i b c d : Nat) : Nat :=
  if i < 20 then (b &&& c) ||| ((4294967295 - b) &&& d)
  else if i < 40 then b ^^^ c ^^^ d
  else if i < 60 then (b &&& c) ||| (b &&& d) ||| (c &&& d)
  else b ^^^ c ^^^ d

/-- The SHA-1 round constants. -/
def sha1K (i : Nat) : Nat :=
  if i < 20 then 1518500249 else if i < 40 then 1859775393
  else if i < 60 then 2400959708 else 3395469782

/-- Expand a 16-word block by `n` further message-schedule words. -/
def sha1Expand (ws : List Nat) : Nat → List Nat
  | 0 => ws
  | n + 1 =>
      let prev := sha1Expand ws n
      let m := prev.length
      prev ++ [rotl32 1 ((prev.getD (m - 3) 0) ^^^ (prev.getD (m - 8) 0) ^^^
        (prev.getD (m - 14) 0) ^^^ (prev.getD (m - 16) 0))]

/-- One SHA-1 compression step over a 16-word block. -/
def sha1Compress (h : Nat × Nat × Nat × Nat × Nat) (block : List Nat) :
    Nat × Nat × Nat × Nat × Nat :=
  let ws := sha1Expand block 64
  let st := ws.enum.foldl
    (fun st iw =>
      let t := (rotl32 5 st.1 + sha1F iw.1 st.2.1 st.2.2.1 st.2.2.2.1 + st.2.2.2.2 +
        sha1K iw.1 + iw.2) % 4294967296
      (t, st.1, rotl32 30 st.2.1, st.2.2.1, st.2.2.2.1))
    (h.1, h.2.1, h.2.2.1, h.2.2.2.1, h.2.2.2.2)
  ((h.1 + st.1) % 4294967296, (h.2.1 + st.2.1) % 4294967296, (h.2.2.1 + st.2.2.1) % 4294967296,
   (h.2.2.2.1 + st.2.2.2.1) % 4294967296, (h.2.2.2.2 + st.2.2.2.2) % 4294967296)

/-- The SHA-1 digest of a byte sequence, as five 32-bit words. -/
def sha1Digest (msg : List Nat) : Nat × Nat × Nat × Nat × Nat :=
  (toBlocks (bytesToWords (sha1Pad msg))).foldl sha1Compress
    (1732584193, 4023233417, 2562383102, 271733878, 3285377520)

/-- Lowercase hexadecimal digit. -/
def hexDigit (n : Nat) : Char := if n < 10 then Char.ofNat (48 + n) else Char.ofNat (87 + n)

/-- Lowercase 8-digit hexadecimal rendering of a 32-bit word. -/
def hexWord32 (w : Nat) : List Char :=
  [hexDigit ((w >>> 28) % 16), hexDigit ((w >>> 24) % 16), hexDigit ((w >>> 20) % 16),
   hexDigit ((w >>> 16) % 16), hexDigit ((w >>> 12) % 16), hexDigit ((w >>> 8) % 16),
   hexDigit ((w >>> 4) % 16), hexDigit (w % 16)]

/-- Lowercase hex SHA-1 of a byte sequence: models
`format!("{:x}", Sha1::digest(bytes))` computed by `update_mod`. -/
def sha1Hex (msg : List Nat) : String :=
  String.mk (hexWord32 (sha1Digest msg).1 ++ hexWord32 (sha1Digest msg).2.1 ++
    hexWord32 (sha1Digest msg).2.2.1 ++ hexWord32 (sha1Digest msg).2.2.2.1 ++
    hexWord32 (sha1Digest msg).2.2.2.2)

/-! ## Semantic versions (model of the `semver` crate, a dependency of
`check_update.rs`)

`Version::parse` accepts `MAJOR.MINOR.PATCH` with optional `-PRERELEASE`
and `+BUILD` parts: the three numeric components are decimal, without
leading zeros, bounded by `u64::MAX`; identifiers are nonempty, drawn from
ASCII alphanumerics and `-`, dot-separated; numeric prerelease identifiers
must not have leading zeros. `Ord` compares major, minor, patch, then
prerelease (absent > present; identifier-wise, numeric before alphanumeric,
numeric ones by magnitude, alphanumeric ones in ASCII order), with build
metadata as a final lexicographic tiebreaker. -/

/-- A parsed semantic version. Prerelease and build metadata are kept as
lists of dot-separated identifiers (each a list of characters). -/
structure Version where
  major : Nat
  minor : Nat
  patch : Nat
  pre : List (List Char)
  build : List (List Char)
deriving DecidableEq, Repr

/-- Characters allowed in prerelease/build identifiers. -/
def isIdentChar (c : Char) : Bool := c.isDigit || c.isAlpha || c == '-'

/-- Decimal value of a digit string. -/
def natOfDigits (cs : List Char) : Nat := cs.foldl (fun n c => n * 10 + (c.toNat - 48)) 0

/-- A valid numeric core component: nonempty digits, no leading zero,
fits in a `u64`. -/
def validNumCore (cs : List Char) : Bool :=
  !cs.isEmpty && cs.all Char.isDigit &&
    !(cs.head? == some '0' && cs.length != 1) &&
    natOfDigits cs < 18446744073709551616

/-- Split a character list on every dot, keeping empty segments. -/
def splitOnDot : List Char → List (List Char)
  | [] => [[]]
  | '.' :: rest => [] :: splitOnDot rest
  | c :: rest =>
    match splitOnDot rest with
    | seg :: segs => (c :: seg) :: segs
    | [] => [[c]]

/-- A valid prerelease identifier: nonempty, allowed characters, and if it
is all digits it has no leading zero. -/
def validPreId (cs : List Char) : Bool :=
  !cs.isEmpty && cs.all isIdentChar &&
    !(cs.all Char.isDigit && cs.head? == some '0' && cs.length != 1)

/-- A valid build identifier: nonempty, allowed characters. -/
def validBuildId (cs : List Char) : Bool := !cs.isEmpty && cs.all isIdentChar

/-- Split at the first `+`, returning the part before it and, when a `+`
occurs, the part after it. -/
def breakAtPlus (cs : List Char) : List Char × Option (List Char) :=
  match cs.span (fun c => c != '+') with
  | (a, []) => (a, none)
  | (a, _ :: b) => (a, some b)

/-- Model of `semver::Version::parse` as used by `pick_latest` and
`compare_and_update`: `none` models a parse error. -/
def Version.parse (s : String) : Option Version :=
  let cs := s.data
  let p1 := cs.span Char.isDigit
  if validNumCore p1.1 then
    match p1.2 with
    | '.' :: r2 =>
      let p2 := r2.span Char.isDigit
      if validNumCore p2.1 then
        match p2.2 with
        | '.' :: r4 =>
          let p3 := r4.span Char.isDigit
          if validNumCore p3.1 then
            let ma := natOfDigits p1.1
            let mi := natOfDigits p2.1
            let pa := natOfDigits p3.1
            match p3.2 with
            | [] => some ⟨ma, mi, pa, [], []⟩
            | '+' :: b =>
              let bids := splitOnDot b
              if bids.all validBuildId then some ⟨ma, mi, pa, [], bids⟩ else none
            | '-' :: p =>
              let pb := breakAtPlus p
              let pids := splitOnDot pb.1
              if pids.all validPreId then
                match pb.2 with
                | none => some ⟨ma, mi, pa, pids, []⟩
                | some b =>
                  let bids := splitOnDot b
                  if bids.all validBuildId then some ⟨ma, mi, pa, pids, bids⟩ else none
              else none
            | _ => none
          else none
        | _ => none
      else none
    | _ => none
  else none

/-- Lexicographic comparison of lists from a comparison of elements:
a proper prefix is smaller. -/
def lexList (c : α → α → Ordering) : List α → List α → Ordering
  | [], [] => .eq
  | [], _ :: _ => .lt
  | _ :: _, [] => .gt
  | x :: xs, y :: ys => (c x y).then (lexList c xs ys)

/-- Character comparison by code point (ASCII order on ASCII strings). -/
def cmpChar (a b : Char) : Ordering := compare a.toNat b.toNat

/-- Comparison of single prerelease/build identifiers: numeric identifiers
sort before alphanumeric ones and compare by length then character-wise
(equivalently, by magnitude when leading zeros are absent); alphanumeric
identifiers compare in ASCII order. -/
def cmpIdent (a b : List Char) : Ordering :=
  match a.all Char.isDigit, b.all Char.isDigit with
  | true, true => (compare a.length b.length).then (lexList cmpChar a b)
  | true, false => .lt
  | false, true => .gt
  | false, false => lexList cmpChar a b

/-- Comparison of prerelease identifier lists: an absent prerelease sorts
above any present one; otherwise identifier-wise lexicographic. -/
def cmpPre (a b : List (List Char)) : Ordering :=
  match a, b with
  | [], [] => .eq
  | [], _ :: _ => .gt
  | _ :: _, [] => .lt
  | _ :: _, _ :: _ => lexList cmpIdent a b

/-- Model of `semver::Version`'s total order (`Ord::cmp`). -/
def Version.cmp (a b : Version) : Ordering :=
  (compare a.major b.major).then ((compare a.minor b.minor).then
    ((compare a.patch b.patch).then ((cmpPre a.pre b.pre).then
      (lexList cmpIdent a.build b.build))))

/-! ## Release selection (`check_update.rs`) -/

/-- A remote release entry as deserialized from the mod portal API
(struct `Release` in `check_update.rs`). -/
structure Release where
  version : String
  download_url : String
  file_name : String
  sha1 : String
deriving DecidableEq, Repr

/-- Model of Rust `Iterator::max_by`: the maximum under the comparison,
returning the last of several equally-maximum elements. -/
def maxByLast (c : α → α → Ordering) : List α → Option α
  | [] => none
  | x :: xs => some (xs.foldl (fun a b => if c a b = .gt then a else b) x)

/-- Model of `pick_latest` in `check_update.rs`: keep releases whose
version parses, pair them with the parsed version, and take the maximum
by version. -/
def pick_latest (releases : List Release) : Option (Version × Release) :=
  maxByLast (fun a b : Version × Release => Version.cmp a.1 b.1)
    (releases.filterMap (fun r => (Version.parse r.version).map (fun v => (v, r))))

/-! ## Orchestrator (`check_mod_updates`, `should_process_mod`,
`compare_and_update` in `check_update.rs`)

Directory enumeration is modelled as an explicit list of entries; the
per-mod processing body (`process_mod_dir`: manifest read, network fetch,
release selection, update) is a parameter, since `check_mod_updates` only
calls it and discards its error after logging. -/

/-- One entry of the data directory as seen by the orchestrator: its file
name, whether it is a directory, and whether it contains `info.json`.
`should_process_mod` in the source reads only the first two; the manifest
flag is carried so that the discovery policy can be stated against it. -/
structure DirEntry where
  name : String
  isDir : Bool
  hasInfoJson : Bool
deriving DecidableEq, Repr

/-- Errors that one mod's processing can surface (manifest, network,
integrity, archive, filesystem); the orchestrator treats them uniformly. -/
inductive ModErr
  | manifestError
  | networkError
  | integrityError
  | archiveError
  | filesystemError
deriving DecidableEq, Repr

/-- Model of `should_process_mod` in `check_update.rs`: skip when the
entry is not a directory or is named `base` or `core`. -/
def should_process_mod (e : DirEntry) : Bool :=
  let skip := !e.isDir || e.name == "base" || e.name == "core"
  !skip

/-- Model of `check_mod_updates` in `check_update.rs`: walk the entries,
run `process` on each qualifying one, log-and-swallow its error, and
return `Ok`. The second component records, in order, each processed
entry's name together with whether its processing succeeded. -/
def check_mod_updates (entries : List DirEntry) (process : DirEntry → Except ModErr Unit) :
    Except ModErr Unit × List (String × Bool) :=
  let log := entries.foldl
    (fun acc e =>
      if should_process_mod e then
        acc ++ [(e.name, match process e with | .ok _ => true | .error _ => false)]
      else acc)
    []
  (.ok (), log)

/-! ## Installer (`update_mod` in `mod_updater.rs`)

The filesystem is modelled by the contents of the package root `data/`
(a list of entries: name and directory flag) plus whether the scratch
directory `temp/` exists. The external world of one call — URL parsing,
the HTTP response, the downloaded bytes, archive extraction, and the
location of `info.json` inside the extracted tree — is an explicit input.

Modelling notes, all matching `mod_updater.rs`:
* `fs::create_dir_all("data")` touches the package root itself, never its
  contents, so it does not appear in the state;
* `fs::rename` of the extracted root into `data/` is modelled as failing
  when the destination name already exists (the destination would be a
  previously installed, hence non-empty, package directory);
* directory reads and removals themselves are modelled as infallible. -/

/-- The observable filesystem state: entries under the package root
`data/` as (name, is-directory) pairs, and existence of `temp/`. -/
structure FS where
  dataDirs : List (String × Bool)
  tempExists : Bool
deriving DecidableEq, Repr

/-- The external world of one `update_mod` call. -/
structure World where
  urlOk : Bool
  httpOk : Bool
  bytes : List Nat
  zipReadOk : Bool
  extractOk : Bool
  infoRoot : Option String
  rootNameOk : Bool
deriving DecidableEq, Repr

/-- Failure cases of `update_mod`, one per `return Err`/`?` site. -/
inductive UpdErr
  | invalidUrl
  | httpFailure
  | shaMismatch
  | zipReadError
  | extractError
  | noInfoJson
  | badFolderName
  | renameFailed
  | localVersionInvalid
deriving DecidableEq, Repr

deriving instance DecidableEq for Except

/-- Outcome of one `update_mod` call: its result, the filesystem after it
returns, and whether the HTTP GET was performed. -/
structure UpdResult where
  res : Except UpdErr Unit
  fs : FS
  downloaded : Bool
deriving DecidableEq, Repr

/-- Model of Rust `str::trim_end_matches(".zip")`: repeatedly strip the
suffix `.zip`. Works on the reversed character list. -/
def stripZipRev : List Char → List Char
  | 'p' :: 'i' :: 'z' :: '.' :: rest => stripZipRev rest
  | l => l

/-- The canonical install folder name: the extracted root's name with
every trailing `.zip` removed (`raw.trim_end_matches(".zip")`). -/
def neatName (raw : String) : String :=
  String.mk (stripZipRev raw.data.reverse).reverse

/-- The package slug: the part of the canonical name before the first
underscore, or the whole name when it has none (the source's
`split_once` on an underscore, keeping the left part). -/
def slugOf (neat : String) : String :=
  String.mk (neat.data.takeWhile (fun c => c != '_'))

/-- Whether `s` starts with `p` (Rust `str::starts_with`). -/
def strStartsWith (p s : String) : Bool := p.data.isPrefixOf s.data

/-- The old-version cleanup loop of `update_mod`: remove every directory
under the package root whose name starts with `slug_` and is not the
canonical name; keep everything else. -/
def cleanupOldVersions (slug neat : String) (dirs : List (String × Bool)) :
    List (String × Bool) :=
  dirs.filter (fun e => !(e.2 && strStartsWith (slug ++ "_") e.1 && e.1 != neat))

/-- The tail of `update_mod` that runs after the SHA-1 check passes
(`mod_updater.rs` lines 80-147): clear and recreate `temp/`, read and
extract the ZIP, locate the `info.json` parent, derive the canonical name
and slug, remove stale versions, rename the extracted root into `data/`,
and remove `temp/`. -/
def install_phase (w : World) (fs : FS) : UpdResult :=
  if !w.zipReadOk then ⟨.error .zipReadError, ⟨fs.dataDirs, true⟩, true⟩
  else if !w.extractOk then ⟨.error .extractError, ⟨fs.dataDirs, true⟩, true⟩
  else
    match w.infoRoot with
    | none => ⟨.error .noInfoJson, ⟨fs.dataDirs, true⟩, true⟩
    | some raw =>
      if !w.rootNameOk then ⟨.error .badFolderName, ⟨fs.dataDirs, true⟩, true⟩
      else if (cleanupOldVersions (slugOf (neatName raw)) (neatName raw) fs.dataDirs).any
          (fun e => e.1 == neatName raw) then
        ⟨.error .renameFailed,
         ⟨cleanupOldVersions (slugOf (neatName raw)) (neatName raw) fs.dataDirs, true⟩, true⟩
      else
        ⟨.ok (),
         ⟨cleanupOldVersions (slugOf (neatName raw)) (neatName raw) fs.dataDirs ++
           [(neatName raw, true)], false⟩, true⟩

/-- Model of `update_mod` in `mod_updater.rs`, step for step:
ensure `data/` exists, build the authenticated URL, download, check the
SHA-1 (`got_sha != expected_sha` is a plain string comparison of the
lowercase-hex digest), then run the installation phase. -/
def update_mod (_name _download_url : String) (expected_sha : String)
    (_username _token : String) (w : World) (fs : FS) : UpdResult :=
  if !w.urlOk then ⟨.error .invalidUrl, fs, false⟩
  else if !w.httpOk then ⟨.error .httpFailure, fs, true⟩
  else if sha1Hex w.bytes != expected_sha then ⟨.error .shaMismatch, fs, true⟩
  else install_phase w fs

/-- The local mod manifest (`LocalInfo` in `check_update.rs`). -/
structure LocalInfo where
  name : String
  version : String
deriving DecidableEq, Repr

/-- Model of `compare_and_update` in `check_update.rs`: parse the local
version; if the selected remote version is not greater, do nothing;
otherwise call `update_mod`. -/
def compare_and_update (localInfo : LocalInfo) (remoteVer : Version) (rel : Release)
    (username token : String) (w : World) (fs : FS) : UpdResult :=
  match Version.parse localInfo.version with
  | none => ⟨.error .localVersionInvalid, fs, false⟩
  | some localVer =>
    if Version.cmp remoteVer localVer != .gt then ⟨.ok (), fs, false⟩
    else update_mod rel.file_name rel.download_url rel.sha1 username token w fs

/-! ## Spec-side definitions

These two definitions follow the specification's words, not the source;
they exist to be compared against the source-derived definitions. -/

/-- From the spec: case-insensitive comparison of two hex digest strings
(the comparison the spec prescribes for the integrity check), realized by
lowercasing both sides character by character. -/
def hexEqCaseInsensitive (s t : String) : Bool :=
  s.data.map Char.toLower == t.data.map Char.toLower

/-- From the spec: an entry qualifies as a package when it is a
directory, is not one of the two reserved built-in names, and contains
the manifest file. -/
def specQualifies (e : DirEntry) : Bool :=
  e.isDir && !(e.name == "base") && !(e.name == "core") && e.hasInfoJson

/-! ## Comparator laws

`pick_latest` maximises with a three-way comparison, so the facts below
establish that the version comparison behaves like a total preorder:
antisymmetric swap, congruence of ties, and transitivity. -/


/-- Sequencing orderings: a strict first component decides the result. -/
theorem then_eq_eq {x y : Ordering} : x.then y = .eq ↔ x = .eq ∧ y = .eq := by
  cases x <;> cases y <;> decide

/-- Sequencing orderings: when the composite is less-than. -/
theorem then_eq_lt {x y : Ordering} : x.then y = .lt ↔ x = .lt ∨ (x = .eq ∧ y = .lt) := by
  cases x <;> cases y <;> decide

/-- Swapping distributes over sequential composition of orderings. -/
theorem thenSwap (x y : Ordering) : (x.then y).swap = x.swap.then y.swap := by
  cases x <;> cases y <;> rfl

/-- Laws making a three-way comparison a total preorder comparator. -/
structure CmpLaws (c : α → α → Ordering) : Prop where
  swap : ∀ a b, c a b = (c b a).swap
  eq_left : ∀ a b z, c a b = .eq → c a z = c b z
  lt_trans : ∀ {a b d}, c a b = .lt → c b d = .lt → c a d = .lt

/-- A lawful comparison is reflexive. -/
theorem CmpLaws.cmp_refl {c : α → α → Ordering} (h : CmpLaws c) (a : α) : c a a = .eq := by
  have hs := h.swap a a
  cases hc : c a a with
  | lt => rw [hc] at hs; exact absurd hs (by decide)
  | eq => rfl
  | gt => rw [hc] at hs; exact absurd hs (by decide)

/-- Greater-than one way is less-than the other way. -/
theorem CmpLaws.gt_iff_lt {c : α → α → Ordering} (h : CmpLaws c) (a b : α) :
    c a b = .gt ↔ c b a = .lt := by
  have hs := h.swap a b
  constructor
  · intro hg
    rw [hg] at hs
    cases hb : c b a <;> rw [hb] at hs <;> first | rfl | exact absurd hs (by decide)
  · intro hl
    rw [hl] at hs
    exact hs

/-- A tie may be substituted on the right of any comparison. -/
theorem CmpLaws.eq_right {c : α → α → Ordering} (h : CmpLaws c) (a b z : α)
    (he : c a b = .eq) : c z a = c z b := by
  rw [h.swap z a, h.swap z b, h.eq_left a b z he]

/-- Transitivity of the at-most relation induced by the comparison. -/
theorem CmpLaws.le_trans {c : α → α → Ordering} (h : CmpLaws c) {a b d : α}
    (hab : c a b ≠ .gt) (hbd : c b d ≠ .gt) : c a d ≠ .gt := by
  intro had
  cases h1 : c a b with
  | gt => exact hab h1
  | eq =>
    rw [h.eq_left a b d h1] at had
    exact hbd had
  | lt =>
    cases h2 : c b d with
    | gt => exact hbd h2
    | eq =>
      rw [← h.eq_right b d a h2, h1] at had
      exact absurd had (by decide)
    | lt =>
      rw [h.lt_trans h1 h2] at had
      exact absurd had (by decide)

/-- Sequential composition preserves the comparator laws. -/
theorem CmpLaws.then_comp {c₁ c₂ : α → α → Ordering} (h₁ : CmpLaws c₁) (h₂ : CmpLaws c₂) :
    CmpLaws (fun a b => (c₁ a b).then (c₂ a b)) := by
  constructor
  · intro a b
    rw [h₁.swap a b, h₂.swap a b, thenSwap]
  · intro a b z he
    obtain ⟨he1, he2⟩ := then_eq_eq.mp he
    rw [h₁.eq_left a b z he1, h₂.eq_left a b z he2]
  · intro a b d hab hbd
    simp only at hab hbd ⊢
    rcases then_eq_lt.mp hab with h1 | ⟨h1, h1'⟩
    · rcases then_eq_lt.mp hbd with h2 | ⟨h2, h2'⟩
      · exact then_eq_lt.mpr (Or.inl (h₁.lt_trans h1 h2))
      · exact then_eq_lt.mpr (Or.inl (by rw [← h₁.eq_right b d a h2]; exact h1))
    · rcases then_eq_lt.mp hbd with h2 | ⟨h2, h2'⟩
      · exact then_eq_lt.mpr (Or.inl (by rw [h₁.eq_left a b d h1]; exact h2))
      · refine then_eq_lt.mpr (Or.inr ⟨?_, h₂.lt_trans h1' h2'⟩)
        rw [h₁.eq_left a b d h1]
        exact h2

/-- Pulling a lawful comparison back along a function preserves the laws. -/
theorem CmpLaws.comap {c : α → α → Ordering} (h : CmpLaws c) (f : β → α) :
    CmpLaws (fun a b => c (f a) (f b)) := by
  constructor
  · intro a b
    exact h.swap (f a) (f b)
  · intro a b z he
    exact h.eq_left (f a) (f b) (f z) he
  · intro a b d hab hbd
    exact h.lt_trans hab hbd

/-- Comparator laws plus: a tie forces equality. -/
structure StrictCmp (c : α → α → Ordering) : Prop where
  swap : ∀ a b, c a b = (c b a).swap
  eq_of : ∀ {a b}, c a b = .eq → a = b
  lt_trans : ∀ {a b d}, c a b = .lt → c b d = .lt → c a d = .lt

/-- Every strict comparator satisfies the comparator laws. -/
theorem StrictCmp.laws {c : α → α → Ordering} (h : StrictCmp c) : CmpLaws c :=
  ⟨h.swap, fun a b z he => by rw [h.eq_of he], h.lt_trans⟩

/-- `Nat.compare` is a strict comparator. -/
theorem strictCmp_natCompare : StrictCmp (fun a b : Nat => compare a b) := by
  constructor
  · intro a b
    rcases Nat.lt_trichotomy a b with h | h | h
    · rw [compare_lt_iff_lt.mpr h, compare_gt_iff_gt.mpr h]; rfl
    · rw [h, compare_eq_iff_eq.mpr rfl]; rfl
    · rw [compare_gt_iff_gt.mpr h, compare_lt_iff_lt.mpr h]; rfl
  · intro a b he
    exact compare_eq_iff_eq.mp he
  · intro a b d hab hbd
    exact compare_lt_iff_lt.mpr
      (Nat.lt_trans (compare_lt_iff_lt.mp hab) (compare_lt_iff_lt.mp hbd))

/-- Character comparison by code point is a strict comparator. -/
theorem strictCmp_cmpChar : StrictCmp cmpChar := by
  constructor
  · intro a b
    exact strictCmp_natCompare.swap a.toNat b.toNat
  · intro a b he
    have hn : a.toNat = b.toNat := strictCmp_natCompare.eq_of he
    exact Char.eq_of_val_eq (UInt32.toNat.inj hn)
  · intro a b d hab hbd
    exact strictCmp_natCompare.lt_trans hab hbd

/-- Lexicographic list comparison from a strict comparator is strict. -/
theorem StrictCmp.lex {c : α → α → Ordering} (h : StrictCmp c) : StrictCmp (lexList c) := by
  have hswap : ∀ (xs ys : List α), lexList c xs ys = (lexList c ys xs).swap := by
    intro xs
    induction xs with
    | nil => intro ys; cases ys <;> rfl
    | cons x xt ih =>
      intro ys
      cases ys with
      | nil => rfl
      | cons y yt =>
        show (c x y).then (lexList c xt yt) = ((c y x).then (lexList c yt xt)).swap
        rw [thenSwap, ← h.swap x y, ← ih yt]
  constructor
  · exact hswap
  · intro xs ys he
    induction xs generalizing ys with
    | nil =>
      cases ys with
      | nil => rfl
      | cons y yt => simp [lexList] at he
    | cons x xt ih =>
      cases ys with
      | nil => simp [lexList] at he
      | cons y yt =>
        obtain ⟨h1, h2⟩ := then_eq_eq.mp (show (c x y).then (lexList c xt yt) = .eq from he)
        rw [h.eq_of h1, ih h2]
  · intro xs ys ds hab hbd
    induction xs generalizing ys ds with
    | nil =>
      cases ys with
      | nil => simp [lexList] at hab
      | cons y yt =>
        cases ds with
        | nil => simp [lexList] at hbd
        | cons d dt => rfl
    | cons x xt ih =>
      cases ys with
      | nil => simp [lexList] at hab
      | cons y yt =>
        cases ds with
        | nil => simp [lexList] at hbd
        | cons d dt =>
          show (c x d).then (lexList c xt dt) = .lt
          rcases then_eq_lt.mp (show (c x y).then (lexList c xt yt) = .lt from hab) with
            h1 | ⟨h1, h1'⟩
          · rcases then_eq_lt.mp (show (c y d).then (lexList c yt dt) = .lt from hbd) with
              h2 | ⟨h2, h2'⟩
            · exact then_eq_lt.mpr (Or.inl (h.lt_trans h1 h2))
            · exact then_eq_lt.mpr (Or.inl (by rw [← h.eq_of h2]; exact h1))
          · rcases then_eq_lt.mp (show (c y d).then (lexList c yt dt) = .lt from hbd) with
              h2 | ⟨h2, h2'⟩
            · exact then_eq_lt.mpr (Or.inl (by rw [h.eq_of h1]; exact h2))
            · refine then_eq_lt.mpr (Or.inr ⟨?_, ih h1' h2'⟩)
              rw [h.eq_of h1]
              exact h2


/-- Identifier comparison is a strict comparator. -/
theorem strictCmp_cmpIdent : StrictCmp cmpIdent := by
  have hNum : CmpLaws (fun a b : List Char => (compare a.length b.length).then (lexList cmpChar a b)) :=
    CmpLaws.then_comp (strictCmp_natCompare.laws.comap List.length) strictCmp_cmpChar.lex.laws
  have hLex := strictCmp_cmpChar.lex
  constructor
  · intro a b
    cases ha : a.all Char.isDigit <;> cases hb : b.all Char.isDigit <;>
      simp only [cmpIdent, ha, hb]
    · exact hLex.swap a b
    · rfl
    · rfl
    · exact hNum.swap a b
  · intro a b he
    cases ha : a.all Char.isDigit <;> cases hb : b.all Char.isDigit <;>
        simp only [cmpIdent, ha, hb] at he <;>
      first
      | exact Ordering.noConfusion he
      | exact hLex.eq_of he
      | exact hLex.eq_of (then_eq_eq.mp he).2
  · intro a b d hab hbd
    cases ha : a.all Char.isDigit <;> cases hb : b.all Char.isDigit <;>
        cases hd : d.all Char.isDigit <;>
        simp only [cmpIdent, ha, hb, hd] at hab hbd ⊢ <;>
      first
      | exact Ordering.noConfusion hab
      | exact Ordering.noConfusion hbd
      | rfl
      | exact hLex.lt_trans hab hbd
      | exact hNum.lt_trans hab hbd

/-- Prerelease-list comparison is a strict comparator. -/
theorem strictCmp_cmpPre : StrictCmp cmpPre := by
  have hLex := strictCmp_cmpIdent.lex
  constructor
  · intro a b
    cases a <;> cases b <;> first | rfl | exact hLex.swap _ _
  · intro a b he
    cases a <;> cases b
    · rfl
    · exact Ordering.noConfusion he
    · exact Ordering.noConfusion he
    · exact hLex.eq_of he
  · intro a b d hab hbd
    cases a <;> cases b <;> cases d <;>
      first
      | exact Ordering.noConfusion hab
      | exact Ordering.noConfusion hbd
      | rfl
      | exact hLex.lt_trans hab hbd

/-- The version order satisfies the comparator laws. -/
theorem cmpLaws_versionCmp : CmpLaws Version.cmp :=
  (strictCmp_natCompare.laws.comap Version.major).then_comp
    ((strictCmp_natCompare.laws.comap Version.minor).then_comp
      ((strictCmp_natCompare.laws.comap Version.patch).then_comp
        ((strictCmp_cmpPre.laws.comap Version.pre).then_comp
          (strictCmp_cmpIdent.lex.laws.comap Version.build))))

/-- The comparison used by `pick_latest` (versions only, releases ignored)
satisfies the comparator laws. -/
theorem cmpLaws_pairCmp :
    CmpLaws (fun a b : Version × Release => Version.cmp a.1 b.1) :=
  cmpLaws_versionCmp.comap Prod.fst

/-! ## Facts about `maxByLast` (Rust `Iterator::max_by`) -/

/-- The fold underlying `maxByLast` returns one of its inputs. -/
theorem foldl_pick_mem (c : α → α → Ordering) (l : List α) (x : α) :
    l.foldl (fun a b => if c a b = .gt then a else b) x ∈ x :: l := by
  induction l generalizing x with
  | nil => exact List.mem_cons_self x []
  | cons b t ih =>
    rw [List.foldl_cons]
    rcases List.mem_cons.mp (ih (if c x b = .gt then x else b)) with h' | h'
    · rw [h']
      by_cases hc : c x b = .gt
      · rw [if_pos hc]; exact List.mem_cons_self _ _
      · rw [if_neg hc]; exact List.mem_cons_of_mem _ (List.mem_cons_self _ _)
    · exact List.mem_cons_of_mem _ (List.mem_cons_of_mem _ h')

/-- Folding over elements that are at most `m` stays at most `m`. -/
theorem foldl_pick_le (c : α → α → Ordering) {m : α} (l : List α) :
    ∀ x : α, c x m ≠ .gt → (∀ y ∈ l, c y m ≠ .gt) →
      c (l.foldl (fun a b => if c a b = .gt then a else b) x) m ≠ .gt := by
  induction l with
  | nil => intro x hx _; exact hx
  | cons b t ih =>
    intro x hx hl
    rw [List.foldl_cons]
    apply ih
    · by_cases hc : c x b = .gt
      · rw [if_pos hc]; exact hx
      · rw [if_neg hc]; exact hl b (List.mem_cons_self _ _)
    · intro y hy; exact hl y (List.mem_cons_of_mem _ hy)

/-- The fold underlying `maxByLast` yields a maximum of all inputs. -/
theorem foldl_pick_max {c : α → α → Ordering} (h : CmpLaws c) (l : List α) :
    ∀ x : α, ∀ y ∈ x :: l, c y (l.foldl (fun a b => if c a b = .gt then a else b) x) ≠ .gt := by
  induction l with
  | nil =>
    intro x y hy
    rcases List.mem_cons.mp hy with h' | h'
    · rw [List.foldl_nil, h', h.cmp_refl]
      exact fun hh => Ordering.noConfusion hh
    · exact absurd h' (List.not_mem_nil y)
  | cons b t ih =>
    intro x y hy
    rw [List.foldl_cons]
    by_cases hc : c x b = .gt
    · rw [if_pos hc]
      rcases List.mem_cons.mp hy with h' | h'
      · rw [h']
        exact ih x x (List.mem_cons_self _ _)
      · rcases List.mem_cons.mp h' with h2 | h2
        · rw [h2]
          have hbx : c b x ≠ .gt := by
            rw [(h.gt_iff_lt x b).mp hc]
            exact fun hh => Ordering.noConfusion hh
          exact h.le_trans hbx (ih x x (List.mem_cons_self _ _))
        · exact ih x y (List.mem_cons_of_mem _ h2)
    · rw [if_neg hc]
      rcases List.mem_cons.mp hy with h' | h'
      · rw [h']
        exact h.le_trans hc (ih b b (List.mem_cons_self _ _))
      · rcases List.mem_cons.mp h' with h2 | h2
        · rw [h2]
          exact ih b b (List.mem_cons_self _ _)
        · exact ih b y (List.mem_cons_of_mem _ h2)

/-- Folding from `m` over elements strictly below `m` keeps `m`. -/
theorem foldl_pick_fix {c : α → α → Ordering} (h : CmpLaws c) (m : α) (l : List α) :
    (∀ y ∈ l, c y m = .lt) →
      l.foldl (fun a b => if c a b = .gt then a else b) m = m := by
  induction l with
  | nil => intro _; rfl
  | cons b t ih =>
    intro hl
    rw [List.foldl_cons]
    have hb : c m b = .gt := (h.gt_iff_lt m b).mpr (hl b (List.mem_cons_self _ _))
    rw [if_pos hb]
    exact ih (fun y hy => hl y (List.mem_cons_of_mem _ hy))

/-- `maxByLast` returns `none` exactly on the empty list. -/
theorem maxByLast_none (c : α → α → Ordering) (l : List α) :
    maxByLast c l = none ↔ l = [] := by
  cases l <;> simp [maxByLast]

/-- `maxByLast` returns an element of the list. -/
theorem maxByLast_mem {c : α → α → Ordering} {l : List α} {r : α}
    (hr : maxByLast c l = some r) : r ∈ l := by
  cases l with
  | nil => exact Option.noConfusion hr
  | cons x t =>
    have : t.foldl (fun a b => if c a b = .gt then a else b) x = r := Option.some.inj hr
    rw [← this]
    exact foldl_pick_mem c t x

/-- `maxByLast` returns a maximum under the comparison. -/
theorem maxByLast_max {c : α → α → Ordering} (h : CmpLaws c) {l : List α} {r : α}
    (hr : maxByLast c l = some r) : ∀ y ∈ l, c y r ≠ .gt := by
  cases l with
  | nil => exact absurd hr (Option.noConfusion)
  | cons x t =>
    intro y hy
    have heq : t.foldl (fun a b => if c a b = .gt then a else b) x = r := Option.some.inj hr
    rw [← heq]
    exact foldl_pick_max h t x y hy

/-- `maxByLast` returns the last element whose value every earlier element
is at most and every later element is strictly below. -/
theorem maxByLast_last {c : α → α → Ordering} (h : CmpLaws c) (l₁ l₂ : List α) (r : α)
    (h₁ : ∀ y ∈ l₁, c y r ≠ .gt) (h₂ : ∀ y ∈ l₂, c y r = .lt) :
    maxByLast c (l₁ ++ r :: l₂) = some r := by
  cases l₁ with
  | nil =>
    show some (l₂.foldl (fun a b => if c a b = .gt then a else b) r) = some r
    rw [foldl_pick_fix h r l₂ h₂]
  | cons x t =>
    show some ((t ++ r :: l₂).foldl (fun a b => if c a b = .gt then a else b) x) = some r
    rw [List.foldl_append, List.foldl_cons]
    have hle : c (t.foldl (fun a b => if c a b = .gt then a else b) x) r ≠ .gt :=
      foldl_pick_le c t x (h₁ x (List.mem_cons_self _ _))
        (fun y hy => h₁ y (List.mem_cons_of_mem _ hy))
    rw [if_neg hle]
    rw [foldl_pick_fix h r l₂ h₂]


/-! ## Example data used by witnesses and counterexamples -/

/-- A release with version 1.2.0. -/
def relA : Release := ⟨"1.2.0", "urlA", "fileA", "shaA"⟩

/-- A release whose version string does not parse. -/
def relBad : Release := ⟨"not-a-version", "urlB", "fileB", "shaB"⟩

/-- A release with version 1.3.0. -/
def relC : Release := ⟨"1.3.0", "urlC", "fileC", "shaC"⟩

/-- A second, distinct release with the same version 1.3.0. -/
def relD : Release := ⟨"1.3.0", "urlD", "fileD", "shaD"⟩

/-- The parsed version 1.3.0. -/
def v130 : Version := ⟨1, 3, 0, [], []⟩

/-- The lowercase hex SHA-1 digest of the empty byte sequence. -/
def digestEmpty : String := "da39a3ee5e6b4b0d3255bfef95601890afd80709"

/-! ## Claim C4 -/

/-- C4: `pick_latest` returns `none` exactly when the input is empty or no
entry's version string parses; otherwise it returns a pair of a parsed
version and a release of the input whose version parses to exactly that
version, and no parsing entry's version compares greater — the selected
version is the maximum valid semantic version and never an unparsable
entry. -/
theorem pick_latest_correct (releases : List Release) :
    (pick_latest releases = none ↔ ∀ r ∈ releases, Version.parse r.version = none) ∧
    (∀ v : Version, ∀ r : Release, pick_latest releases = some (v, r) →
      r ∈ releases ∧ Version.parse r.version = some v ∧
      ∀ r' ∈ releases, ∀ v' : Version, Version.parse r'.version = some v' →
        Version.cmp v' v ≠ .gt) := by
  constructor
  · rw [pick_latest, maxByLast_none]
    constructor
    · intro hnil r hr
      cases hv : Version.parse r.version with
      | none => rfl
      | some v =>
        have hm : (v, r) ∈ releases.filterMap
            (fun r => (Version.parse r.version).map (fun v => (v, r))) :=
          List.mem_filterMap.mpr ⟨r, hr, by rw [hv]; rfl⟩
        rw [hnil] at hm
        exact absurd hm (List.not_mem_nil _)
    · intro hall
      rw [List.filterMap_eq_nil_iff]
      intro a ha
      rw [hall a ha]
      rfl
  · intro v r hsome
    unfold pick_latest at hsome
    obtain ⟨r0, hr0, hf⟩ := List.mem_filterMap.mp (maxByLast_mem hsome)
    cases hp : Version.parse r0.version with
    | none =>
      rw [hp] at hf
      exact Option.noConfusion hf
    | some v0 =>
      rw [hp] at hf
      simp only [Option.map_some'] at hf
      have h2 := Option.some.inj hf
      have hveq : v0 = v := congrArg Prod.fst h2
      have hreq : r0 = r := congrArg Prod.snd h2
      subst hveq
      subst hreq
      refine ⟨hr0, hp, ?_⟩
      intro r' hr' v' hv'
      have hm' : (v', r') ∈ releases.filterMap
          (fun r => (Version.parse r.version).map (fun v => (v, r))) :=
        List.mem_filterMap.mpr ⟨r', hr', by rw [hv']; rfl⟩
      exact maxByLast_max cmpLaws_pairCmp hsome (v', r') hm'

/-- Witness for C4 at a concrete input: among versions 1.2.0, an
unparsable entry, and 1.3.0, the selector picks 1.3.0, a member whose
version parses, maximal among the parsing entries. -/
theorem pick_latest_correct_witness :
    pick_latest [relA, relBad, relC] = some (v130, relC) ∧
    (relC ∈ [relA, relBad, relC] ∧ Version.parse relC.version = some v130 ∧
      ∀ r' ∈ [relA, relBad, relC], ∀ v' : Version, Version.parse r'.version = some v' →
        Version.cmp v' v130 ≠ .gt) :=
  ⟨by decide, (pick_latest_correct [relA, relBad, relC]).2 v130 relC (by decide)⟩

/-! ## Claim C9 -/

/-- C9: the selection is deterministic and, when several releases tie for
the maximal valid version, the last such release in input order wins:
whenever the input splits as `rs₁ ++ r :: rs₂` with `r` parsing to `v`,
everything before at most `v`, and everything after strictly below `v`,
`pick_latest` returns exactly `(v, r)`. -/
theorem pick_latest_last_of_ties (rs₁ rs₂ : List Release) (r : Release) (v : Version)
    (hr : Version.parse r.version = some v)
    (h₁ : ∀ r' ∈ rs₁, ∀ v' : Version, Version.parse r'.version = some v' →
      Version.cmp v' v ≠ .gt)
    (h₂ : ∀ r' ∈ rs₂, ∀ v' : Version, Version.parse r'.version = some v' →
      Version.cmp v' v = .lt) :
    pick_latest (rs₁ ++ r :: rs₂) = some (v, r) := by
  unfold pick_latest
  rw [List.filterMap_append]
  have hfr : (fun rr : Release => (Version.parse rr.version).map (fun vv => (vv, rr))) r =
      some (v, r) := by
    simp only [hr, Option.map_some']
  rw [@List.filterMap_cons_some Release (Version × Release)
    (fun rr : Release => (Version.parse rr.version).map (fun vv => (vv, rr))) r rs₂ (v, r) hfr]
  apply maxByLast_last cmpLaws_pairCmp
  · intro y hy
    obtain ⟨r', hr', hf⟩ := List.mem_filterMap.mp hy
    cases hp : Version.parse r'.version with
    | none =>
      rw [hp] at hf
      exact Option.noConfusion hf
    | some v' =>
      rw [hp] at hf
      simp only [Option.map_some'] at hf
      rw [← Option.some.inj hf]
      exact h₁ r' hr' v' hp
  · intro y hy
    obtain ⟨r', hr', hf⟩ := List.mem_filterMap.mp hy
    cases hp : Version.parse r'.version with
    | none =>
      rw [hp] at hf
      exact Option.noConfusion hf
    | some v' =>
      rw [hp] at hf
      simp only [Option.map_some'] at hf
      rw [← Option.some.inj hf]
      exact h₂ r' hr' v' hp

/-- Witness for C9 at a concrete input: two distinct releases both carry
the maximal version 1.3.0 and the later one is returned. -/
theorem pick_latest_last_of_ties_witness :
    pick_latest [relC, relD, relA] = some (v130, relD) :=
  pick_latest_last_of_ties [relC] [relA] relD v130 (by decide)
    (by
      intro r' hr' v' hv'
      have he : r' = relC := by
        rcases List.mem_cons.mp hr' with h | h
        · exact h
        · exact absurd h (List.not_mem_nil r')
      subst he
      have hp : Version.parse relC.version = some v130 := by decide
      rw [hp] at hv'
      rw [← Option.some.inj hv']
      decide)
    (by
      intro r' hr' v' hv'
      have he : r' = relA := by
        rcases List.mem_cons.mp hr' with h | h
        · exact h
        · exact absurd h (List.not_mem_nil r')
      subst he
      have hp : Version.parse relA.version = some ⟨1, 2, 0, [], []⟩ := by decide
      rw [hp] at hv'
      rw [← Option.some.inj hv']
      decide)

/-! ## Claim C5 -/

/-- Generalized-accumulator form of the orchestrator's fold: the log is
the filtered entries mapped to (name, outcome) pairs. -/
theorem check_fold_log (process : DirEntry → Except ModErr Unit) (entries : List DirEntry) :
    ∀ acc : List (String × Bool),
      entries.foldl
        (fun acc e =>
          if should_process_mod e then
            acc ++ [(e.name, match process e with | .ok _ => true | .error _ => false)]
          else acc)
        acc =
      acc ++ (entries.filter should_process_mod).map
        (fun e => (e.name, match process e with | .ok _ => true | .error _ => false)) := by
  induction entries with
  | nil =>
    intro acc
    simp
  | cons e t ih =>
    intro acc
    rw [List.foldl_cons]
    by_cases hp : should_process_mod e
    · rw [if_pos hp, ih, List.filter_cons_of_pos hp, List.map_cons, ← List.append_cons]
    · rw [if_neg hp, ih, List.filter_cons_of_neg (by simpa using hp)]

/-- C5: the orchestrator returns `Ok` regardless of any per-package
failures, and its processing log contains one entry for every qualifying
package — later packages are processed even when earlier ones fail, and
no per-package error escapes. -/
theorem check_mod_updates_isolates (entries : List DirEntry)
    (process : DirEntry → Except ModErr Unit) :
    (check_mod_updates entries process).1 = Except.ok () ∧
    (check_mod_updates entries process).2 =
      (entries.filter should_process_mod).map
        (fun e => (e.name, match process e with | .ok _ => true | .error _ => false)) := by
  refine ⟨rfl, ?_⟩
  show entries.foldl _ [] = _
  rw [check_fold_log process entries []]
  rfl

/-! ## Claim C8 -/

/-- Counterexample for C8: a directory containing no `info.json` is still
selected for processing by `should_process_mod`, although the claimed
qualification requires the manifest to be present. -/
theorem should_process_ignores_manifest_cx :
    should_process_mod ⟨"nomanifest", true, false⟩ = true ∧
    specQualifies ⟨"nomanifest", true, false⟩ = false := by
  exact ⟨rfl, rfl⟩

/-- C8 amended: discovery treats an entry as a package exactly when it is
a directory whose name is neither `base` nor `core`; the presence of the
manifest file plays no role in the decision (a directory without
`info.json` is processed and fails later with a captured per-package
error, it is not skipped). -/
theorem should_process_mod_spec :
    (∀ e : DirEntry, should_process_mod e = true ↔
      (e.isDir = true ∧ e.name ≠ "base" ∧ e.name ≠ "core")) ∧
    (∀ (n : String) (d h₁ h₂ : Bool),
      should_process_mod ⟨n, d, h₁⟩ = should_process_mod ⟨n, d, h₂⟩) := by
  constructor
  · intro e
    simp [should_process_mod, and_assoc]
  · intro n d h₁ h₂
    rfl


/-! ## Helper lemmas about `update_mod`'s control flow -/

/-- The installation phase never reports an integrity failure: the SHA-1
comparison happens strictly before it. -/
theorem install_phase_not_shaMismatch (w : World) (fs : FS) :
    (install_phase w fs).res ≠ Except.error UpdErr.shaMismatch := by
  unfold install_phase
  cases w.zipReadOk <;> cases w.extractOk <;> cases w.infoRoot <;> cases w.rootNameOk <;>
      simp <;> (try split) <;> simp

/-- When the URL parses, the download succeeds, and the digest matches
exactly, `update_mod` is the installation phase. -/
theorem update_mod_eq_install (n u expected us tk : String) (w : World) (fs : FS)
    (hurl : w.urlOk = true) (hhttp : w.httpOk = true)
    (hs : sha1Hex w.bytes = expected) :
    update_mod n u expected us tk w fs = install_phase w fs := by
  unfold update_mod
  rw [hurl, hhttp, hs]
  simp

/-- When the URL parses, the download succeeds, and the digest differs
from the expected hash, `update_mod` stops at the integrity check with
the state unchanged. -/
theorem update_mod_sha_mismatch_eq (n u expected us tk : String) (w : World) (fs : FS)
    (hurl : w.urlOk = true) (hhttp : w.httpOk = true)
    (hs : sha1Hex w.bytes ≠ expected) :
    update_mod n u expected us tk w fs = ⟨Except.error UpdErr.shaMismatch, fs, true⟩ := by
  unfold update_mod
  rw [hurl, hhttp]
  simp [hs]

/-- A successful `update_mod` run passed the URL, download, and integrity
checks and reduces to the installation phase. -/
theorem update_mod_ok_shape (n u expected us tk : String) (w : World) (fs : FS)
    (hok : (update_mod n u expected us tk w fs).res = Except.ok ()) :
    w.urlOk = true ∧ w.httpOk = true ∧ sha1Hex w.bytes = expected ∧
    update_mod n u expected us tk w fs = install_phase w fs := by
  unfold update_mod at hok
  cases hu : w.urlOk with
  | false => simp [hu] at hok
  | true =>
    cases hh : w.httpOk with
    | false => simp [hu, hh] at hok
    | true =>
      by_cases hs : sha1Hex w.bytes = expected
      · exact ⟨rfl, rfl, hs, update_mod_eq_install n u expected us tk w fs hu hh hs⟩
      · exfalso
        rw [hu, hh] at hok
        rw [if_neg (by simp), if_neg (by simp)] at hok
        rw [if_pos (by simp [bne_iff_ne, hs])] at hok
        simp at hok

/-- A successful installation phase names an extracted root, finds the
canonical name fresh after cleanup, and ends in the cleaned state plus
the new canonical directory, with the scratch directory removed. -/
theorem install_phase_ok (w : World) (fs : FS)
    (hok : (install_phase w fs).res = Except.ok ()) :
    ∃ raw, w.infoRoot = some raw ∧
      (cleanupOldVersions (slugOf (neatName raw)) (neatName raw) fs.dataDirs).any
        (fun e => e.1 == neatName raw) = false ∧
      install_phase w fs =
        ⟨Except.ok (),
         ⟨cleanupOldVersions (slugOf (neatName raw)) (neatName raw) fs.dataDirs ++
           [(neatName raw, true)], false⟩, true⟩ := by
  unfold install_phase at hok ⊢
  cases hz : w.zipReadOk with
  | false => simp [hz] at hok
  | true =>
    cases hex : w.extractOk with
    | false => simp [hz, hex] at hok
    | true =>
      cases hroot : w.infoRoot with
      | none => simp [hz, hex, hroot] at hok
      | some raw =>
        cases hn : w.rootNameOk with
        | false => simp [hz, hex, hroot, hn] at hok
        | true =>
          simp only [hz, hex, hroot, hn, Bool.not_true, Bool.false_eq_true, if_false] at hok ⊢
          cases hany : (cleanupOldVersions (slugOf (neatName raw)) (neatName raw)
              fs.dataDirs).any (fun e => e.1 == neatName raw) with
          | true =>
            rw [if_pos hany] at hok
            simp at hok
          | false =>
            refine ⟨raw, rfl, hany, ?_⟩
            rw [if_neg (by simp [hany])]

/-! ## Claim C1 -/

/-- C1 amended: with a parseable URL and a successful download, the
integrity check of `update_mod` rejects exactly when the lowercase-hex
SHA-1 digest of the downloaded bytes differs from the expected hash as a
byte-for-byte, case-sensitive string comparison; in particular an
expected hash written in uppercase is rejected even when it denotes the
computed digest. -/
theorem update_mod_sha_check (n u expected us tk : String) (w : World) (fs : FS)
    (hurl : w.urlOk = true) (hhttp : w.httpOk = true) :
    ((update_mod n u expected us tk w fs).res = Except.error UpdErr.shaMismatch ↔
      sha1Hex w.bytes ≠ expected) := by
  by_cases hs : sha1Hex w.bytes = expected
  · rw [update_mod_eq_install n u expected us tk w fs hurl hhttp hs]
    constructor
    · intro h
      exact absurd h (install_phase_not_shaMismatch w fs)
    · intro h
      exact absurd hs h
  · rw [update_mod_sha_mismatch_eq n u expected us tk w fs hurl hhttp hs]
    constructor
    · intro _
      exact hs
    · intro _
      rfl

/-- Witness for C1 at a concrete input: the download yields the empty
byte sequence whose digest differs from the expected string "00", and
`update_mod` reports the integrity error. -/
theorem update_mod_sha_check_witness :
    ((update_mod "m" "u" "00" "usr" "tok" ⟨true, true, [], true, true, some "m_1.0", true⟩
      ⟨[], false⟩).res = Except.error UpdErr.shaMismatch ↔ sha1Hex [] ≠ "00") :=
  update_mod_sha_check "m" "u" "00" "usr" "tok"
    ⟨true, true, [], true, true, some "m_1.0", true⟩ ⟨[], false⟩ rfl rfl

/-- Counterexample for C1 as stated: the uppercase rendering of the
digest of the empty payload is equal to the computed digest under the
case-insensitive comparison the claim prescribes, yet `update_mod`
rejects it, because the source compares strings case-sensitively. -/
theorem update_mod_case_sensitive_cx :
    hexEqCaseInsensitive (sha1Hex []) "DA39A3EE5E6B4B0D3255BFEF95601890AFD80709" = true ∧
    (update_mod "m" "u" "DA39A3EE5E6B4B0D3255BFEF95601890AFD80709" "usr" "tok"
        ⟨true, true, [], true, true, some "m_1.0", true⟩ ⟨[], false⟩).res =
      Except.error UpdErr.shaMismatch :=
  ⟨by decide, by decide⟩

/-! ## Claim C2 -/

/-- C2: any run in which the integrity check fires leaves the package
root — in fact the whole observed filesystem — exactly as it was: no
directory under the package root is created or removed. -/
theorem update_mod_integrity_fail_frame (n u expected us tk : String) (w : World) (fs : FS)
    (hurl : w.urlOk = true) (hhttp : w.httpOk = true)
    (hs : sha1Hex w.bytes ≠ expected) :
    (update_mod n u expected us tk w fs).fs.dataDirs = fs.dataDirs ∧
    (update_mod n u expected us tk w fs).fs = fs ∧
    (update_mod n u expected us tk w fs).res = Except.error UpdErr.shaMismatch := by
  rw [update_mod_sha_mismatch_eq n u expected us tk w fs hurl hhttp hs]
  exact ⟨rfl, rfl, rfl⟩

/-- Witness for C2 at a concrete input: wrong expected hash, directory
contents untouched. -/
theorem update_mod_integrity_fail_frame_witness :
    (update_mod "m" "u" "00" "usr" "tok" ⟨true, true, [], true, true, some "m_1.0", true⟩
      ⟨[("a", true)], false⟩).fs.dataDirs = [("a", true)] ∧
    (update_mod "m" "u" "00" "usr" "tok" ⟨true, true, [], true, true, some "m_1.0", true⟩
      ⟨[("a", true)], false⟩).fs = ⟨[("a", true)], false⟩ ∧
    (update_mod "m" "u" "00" "usr" "tok" ⟨true, true, [], true, true, some "m_1.0", true⟩
      ⟨[("a", true)], false⟩).res = Except.error UpdErr.shaMismatch :=
  update_mod_integrity_fail_frame "m" "u" "00" "usr" "tok"
    ⟨true, true, [], true, true, some "m_1.0", true⟩ ⟨[("a", true)], false⟩ rfl rfl (by decide)


/-! ## Claim C3 -/

/-- World for the update scenario: download succeeds with the empty
payload, the archive extracts, and the extracted root is named
`boblogistics_1.3.0`. -/
def wB : World := ⟨true, true, [], true, true, some "boblogistics_1.3.0", true⟩

/-- Initial package root holding the outdated `boblogistics_1.2.0`. -/
def fsB : FS := ⟨[("boblogistics_1.2.0", true)], false⟩

/-- Counterexample for C3 as stated: a successful install whose canonical
name `foo` contains no underscore ends with zero directories whose name
begins with the slug followed by an underscore — not exactly one. -/
theorem update_mod_slugless_cx :
    (update_mod "m" "u" digestEmpty "usr" "tok"
        ⟨true, true, [], true, true, some "foo", true⟩ ⟨[], false⟩).res = Except.ok () ∧
    ((update_mod "m" "u" digestEmpty "usr" "tok"
        ⟨true, true, [], true, true, some "foo", true⟩ ⟨[], false⟩).fs.dataDirs.countP
      (fun e => e.2 && strStartsWith (slugOf (neatName "foo") ++ "_") e.1)) = 0 ∧
    (update_mod "m" "u" digestEmpty "usr" "tok"
        ⟨true, true, [], true, true, some "foo", true⟩ ⟨[], false⟩).fs.dataDirs =
      [(neatName "foo", true)] :=
  ⟨by decide, by decide, by decide⟩

/-- C3 amended: after every successful run the canonical new-version
directory derived from the archive is present exactly once, every
directory whose name begins with the slug followed by an underscore is
that canonical directory (so when the canonical name itself has an
underscore it is the unique such directory, and when it has none no such
directory remains), and the scratch directory no longer exists. -/
theorem update_mod_success_invariant (n u expected us tk : String) (w : World) (fs : FS)
    (raw : String) (hroot : w.infoRoot = some raw)
    (hok : (update_mod n u expected us tk w fs).res = Except.ok ()) :
    (update_mod n u expected us tk w fs).fs.tempExists = false ∧
    (update_mod n u expected us tk w fs).fs.dataDirs.countP
      (fun e => e.1 == neatName raw) = 1 ∧
    (neatName raw, true) ∈ (update_mod n u expected us tk w fs).fs.dataDirs ∧
    ∀ e ∈ (update_mod n u expected us tk w fs).fs.dataDirs,
      e.2 = true → strStartsWith (slugOf (neatName raw) ++ "_") e.1 = true →
        e.1 = neatName raw := by
  obtain ⟨-, -, -, heq⟩ := update_mod_ok_shape n u expected us tk w fs hok
  rw [heq] at hok ⊢
  obtain ⟨raw', hroot', hany, hfinal⟩ := install_phase_ok w fs hok
  rw [hroot] at hroot'
  have hraw : raw' = raw := (Option.some.inj hroot').symm
  subst hraw
  rw [hfinal]
  refine ⟨rfl, ?_, ?_, ?_⟩
  · show (cleanupOldVersions (slugOf (neatName raw')) (neatName raw') fs.dataDirs ++
      [(neatName raw', true)]).countP (fun e => e.1 == neatName raw') = 1
    rw [List.countP_append]
    have h0 : (cleanupOldVersions (slugOf (neatName raw')) (neatName raw')
        fs.dataDirs).countP (fun e => e.1 == neatName raw') = 0 := by
      rw [List.countP_eq_zero]
      intro a ha hpa
      rw [List.any_eq_false] at hany
      exact hany a ha hpa
    rw [h0]
    simp
  · exact List.mem_append.mpr (Or.inr (List.mem_cons_self _ _))
  · intro e he hd hsw
    rcases List.mem_append.mp he with hc | hc
    · have hp := (List.mem_filter.mp hc).2
      simp only [hd, hsw, Bool.true_and, Bool.not_eq_true'] at hp
      cases hbe : e.1 == neatName raw' with
      | true => exact beq_iff_eq.mp hbe
      | false =>
        rw [bne, hbe] at hp
        exact absurd hp (by decide)
    · have he' : e = (neatName raw', true) := by simpa using hc
      rw [he']

/-- Witness for C3 (amended) at the boblogistics scenario: the stale
`boblogistics_1.2.0` is replaced by the single `boblogistics_1.3.0`. -/
theorem update_mod_success_invariant_witness :
    (update_mod "m" "u" digestEmpty "usr" "tok" wB fsB).fs.tempExists = false ∧
    (update_mod "m" "u" digestEmpty "usr" "tok" wB fsB).fs.dataDirs.countP
      (fun e => e.1 == neatName "boblogistics_1.3.0") = 1 ∧
    (neatName "boblogistics_1.3.0", true) ∈
      (update_mod "m" "u" digestEmpty "usr" "tok" wB fsB).fs.dataDirs ∧
    ∀ e ∈ (update_mod "m" "u" digestEmpty "usr" "tok" wB fsB).fs.dataDirs,
      e.2 = true → strStartsWith (slugOf (neatName "boblogistics_1.3.0") ++ "_") e.1 = true →
        e.1 = neatName "boblogistics_1.3.0" :=
  update_mod_success_invariant "m" "u" digestEmpty "usr" "tok" wB fsB
    "boblogistics_1.3.0" rfl (by decide)

/-! ## Claim C6 -/

/-- Counterexample for C6 as stated: when reading the downloaded ZIP
fails, `update_mod` returns with the scratch directory it created during
this call still present. -/
theorem update_mod_temp_left_cx :
    (update_mod "m" "u" digestEmpty "usr" "tok"
        ⟨true, true, [], false, true, some "m_1.0", true⟩ ⟨[], false⟩).res =
      Except.error UpdErr.zipReadError ∧
    (update_mod "m" "u" digestEmpty "usr" "tok"
        ⟨true, true, [], false, true, some "m_1.0", true⟩ ⟨[], false⟩).fs.tempExists = true :=
  ⟨by decide, by decide⟩

/-- C6 amended: on the successful exit path the scratch directory is
removed before `update_mod` returns; on failure exit paths after the
scratch directory has been created it may be left behind (the program
clears a leftover scratch directory at startup and at the start of the
next `update_mod` call), and on the paths before extraction (URL,
download, integrity failures) it is never created. -/
theorem update_mod_temp_on_success (n u expected us tk : String) (w : World) (fs : FS)
    (hok : (update_mod n u expected us tk w fs).res = Except.ok ()) :
    (update_mod n u expected us tk w fs).fs.tempExists = false := by
  obtain ⟨-, -, -, heq⟩ := update_mod_ok_shape n u expected us tk w fs hok
  rw [heq] at hok ⊢
  obtain ⟨raw, -, -, hfinal⟩ := install_phase_ok w fs hok
  rw [hfinal]

/-- Witness for C6 (amended) at the boblogistics scenario. -/
theorem update_mod_temp_on_success_witness :
    (update_mod "m" "u" digestEmpty "usr" "tok" wB fsB).fs.tempExists = false :=
  update_mod_temp_on_success "m" "u" digestEmpty "usr" "tok" wB fsB (by decide)

/-! ## Claim C7 -/

/-- C7: when the selected remote version is at most the parsed local
version, `compare_and_update` succeeds without downloading and leaves the
filesystem exactly as it was: no directory under the package root is
created, removed, or renamed. -/
theorem compare_and_update_noop (li : LocalInfo) (remoteVer : Version) (rel : Release)
    (us tk : String) (w : World) (fs : FS) (lv : Version)
    (hl : Version.parse li.version = some lv)
    (hle : Version.cmp remoteVer lv ≠ .gt) :
    compare_and_update li remoteVer rel us tk w fs = ⟨Except.ok (), fs, false⟩ := by
  unfold compare_and_update
  simp only [hl]
  have hb : (Version.cmp remoteVer lv != Ordering.gt) = true := by
    cases hc : Version.cmp remoteVer lv
    · rfl
    · rfl
    · exact absurd hc hle
  rw [if_pos hb]

/-- Witness for C7: remote version equal to the local version, nothing
downloaded, directories unchanged. -/
theorem compare_and_update_noop_witness :
    compare_and_update ⟨"boblogistics", "1.2.0"⟩ ⟨1, 2, 0, [], []⟩ relA "usr" "tok"
      ⟨true, true, [], true, true, some "x", true⟩ ⟨[("boblogistics_1.2.0", true)], false⟩ =
      ⟨Except.ok (), ⟨[("boblogistics_1.2.0", true)], false⟩, false⟩ :=
  compare_and_update_noop ⟨"boblogistics", "1.2.0"⟩ ⟨1, 2, 0, [], []⟩ relA "usr" "tok"
    ⟨true, true, [], true, true, some "x", true⟩ ⟨[("boblogistics_1.2.0", true)], false⟩
    ⟨1, 2, 0, [], []⟩ (by decide) (by decide)

/-! ## Claim C10 -/

/-- C10: the stale-version cleanup removes exactly the directories whose
name starts with the slug followed by an underscore and differs from the
canonical name; every other entry — a file, a directory named exactly the
slug with no underscore, or one sharing only a proper prefix of the slug
— survives, and nothing new appears. -/
theorem cleanup_frame (slug neat : String) (dirs : List (String × Bool)) :
    (∀ e ∈ dirs, (e ∉ cleanupOldVersions slug neat dirs ↔
      (e.2 = true ∧ strStartsWith (slug ++ "_") e.1 = true ∧ e.1 ≠ neat))) ∧
    ∀ e ∈ cleanupOldVersions slug neat dirs, e ∈ dirs := by
  constructor
  · intro e he
    unfold cleanupOldVersions
    rw [List.mem_filter]
    cases hd : e.2 <;> cases hsw : strStartsWith (slug ++ "_") e.1 <;>
        by_cases hn : e.1 = neat <;>
      simp [he, hd, hsw, hn, bne]
  · intro e he
    exact (List.mem_filter.mp he).1

/-- Witness for C10: with slug `bob` and canonical name `bob_1.3.0`, the
directory `bobs` (sharing only a proper prefix) is kept. -/
theorem cleanup_frame_witness :
    (("bobs", true) ∉ cleanupOldVersions "bob" "bob_1.3.0"
        [("bobs", true), ("bob_1.2.0", true)] ↔
      (("bobs", true).2 = true ∧ strStartsWith ("bob" ++ "_") ("bobs", true).1 = true ∧
        ("bobs", true).1 ≠ "bob_1.3.0")) :=
  (cleanup_frame "bob" "bob_1.3.0" [("bobs", true), ("bob_1.2.0", true)]).1
    ("bobs", true) (by decide)

end FMM
